import Mathlib

/-!
Verification of the job-tracker pipeline (`update_and_publish.py`).

Python strings are embedded as `List Char`; `str.lower` is modelled at the
character level for ASCII (the only case arising in the data), `str.strip`
drops ASCII whitespace from both ends, and the Python substring test
`a in b` is the executable `pyIn`.
-/

namespace JobTracker

abbrev Str := List Char

/-- ASCII whitespace recognised by Python `str.strip()`. -/
def pySpace (c : Char) : Bool :=
  c = ' ' || c = '\t' || c = '\n' || c = '\r' || c = '\x0b' || c = '\x0c'

/-- Python `str.strip()`: drop whitespace from both ends. -/
def pyStrip (s : Str) : Str :=
  ((s.dropWhile pySpace).reverse.dropWhile pySpace).reverse

/-- Python `str.lower()` (ASCII fragment): `Char.toLower` lowers exactly
the basic latin letters. -/
def pyLower (s : Str) : Str := s.map Char.toLower

/-- Python substring containment `needle in hay`. -/
def pyIn (needle : Str) : Str → Bool
  | [] => needle.isEmpty
  | c :: rest => needle.isPrefixOf (c :: rest) || pyIn needle rest

/-- `TARGET_COMPANIES` from the script. -/
def TARGET_COMPANIES : List Str :=
  ["Stripe".toList, "PayPal".toList, "Block".toList, "Brex".toList,
   "Ramp".toList, "Chime".toList, "Plaid".toList,
   "Marqeta".toList, "Adyen".toList, "Wise".toList, "Snowflake".toList,
   "Databricks".toList, "ServiceNow".toList,
   "Salesforce".toList, "Workday".toList, "UiPath".toList,
   "Palantir".toList, "Robinhood".toList, "SoFi".toList,
   "Coinbase".toList, "Intuit".toList, "Instacart".toList, "Affirm".toList]

/-- `TITLE_KEYWORDS` from the script, in source order. -/
def TITLE_KEYWORDS : List (Str × Nat) :=
  [("vp".toList, 15), ("vice president".toList, 15), ("head".toList, 14),
   ("senior director".toList, 13),
   ("director".toList, 10), ("cfo".toList, 18), ("cpo".toList, 15),
   ("chief".toList, 16),
   ("finance".toList, 12), ("financial".toList, 12), ("fintech".toList, 10),
   ("technology".toList, 8),
   ("systems".toList, 8), ("transformation".toList, 10),
   ("strategy".toList, 8), ("erp".toList, 10),
   ("treasury".toList, 8), ("accounting".toList, 6), ("planning".toList, 7),
   ("analytics".toList, 7),
   ("product".toList, 6), ("operations".toList, 6), ("risk".toList, 5),
   ("controls".toList, 5),
   ("automation".toList, 8), ("data".toList, 5), ("ai".toList, 8),
   ("digital".toList, 7)]

/-- `calculate_fit_score(title, company, location="")`: base 40, plus the
weight of every keyword occurring in the lowercased title, plus 8 once if
any target company occurs (case-insensitively) in the company, plus 5 if
"remote" occurs in the lowercased location or title; capped at 100. -/
def calculate_fit_score (title company : Str) (location : Str := []) : Nat :=
  let title_lower := pyLower title
  let company_lower := pyLower company
  let loc_lower := pyLower location
  let score :=
    TITLE_KEYWORDS.foldl
      (fun s kw => if pyIn kw.1 title_lower then s + kw.2 else s) 40
  let score :=
    if TARGET_COMPANIES.any (fun tc => pyIn (pyLower tc) company_lower)
    then score + 8 else score
  let score :=
    if pyIn "remote".toList loc_lower || pyIn "remote".toList title_lower
    then score + 5 else score
  min score 100

/-- The fit score as the specification words it: `min(100, 40 + the sum of
configured weights of every keyword occurring in the lowercased title + 8
once if any target company occurs case-insensitively in the company + 5 if
"remote" occurs in the lowercased location or title)`. -/
def calc_fit_spec (title company : Str) (location : Str) : Nat :=
  let kwSum :=
    (TITLE_KEYWORDS.map fun kw =>
      if pyIn kw.1 (pyLower title) then kw.2 else 0).sum
  let companyBonus :=
    if TARGET_COMPANIES.any (fun tc => pyIn (pyLower tc) (pyLower company))
    then 8 else 0
  let remoteBonus :=
    if pyIn "remote".toList (pyLower location)
        || pyIn "remote".toList (pyLower title)
    then 5 else 0
  min 100 (40 + kwSum + companyBonus + remoteBonus)

/-- `deduplicate_key(title, company)`:
`f"{title.lower().strip()}|{company.lower().strip()}"`. -/
def deduplicate_key (title company : Str) : Str :=
  pyStrip (pyLower title) ++ '|' :: pyStrip (pyLower company)

/-- A persisted listing record (one element of `jobs_data.json`). -/
structure Job where
  id : Int
  company : Str
  title : Str
  location : Str
  salary : Str
  remote : Str
  link : Str
  score : Nat
  reason : Str
  discovered : Str
  source : Str
  isNew : Bool
  status : Str
  notes : Str
deriving DecidableEq, Repr

/-- One item parsed from the Indeed RSS feed by `search_indeed_rss`. -/
structure Candidate where
  title : Str
  company : Str
  link : Str
  pubDate : Str
deriving DecidableEq, Repr

/-- Dedup key of a stored record, as `search_all` computes it. -/
def jobKey (j : Job) : Str := deduplicate_key j.title j.company

/-- Python `max(l, default=d)`. -/
def pyMax (l : List Int) (d : Int) : Int :=
  match l with
  | [] => d
  | x :: xs => xs.foldl max x

/-- The record `search_all` appends for an accepted candidate. -/
def mkJob (id : Int) (query : Str) (r : Candidate) (today : Str)
    (score : Nat) : Job :=
  { id := id
    company := r.company
    title := r.title
    location := "Remote".toList
    salary := "TBD".toList
    remote := "Yes".toList
    link := r.link
    score := score
    reason := "Found via Indeed search: \x27".toList ++ query
      ++ "\x27. Auto-scored based on title/company keywords.".toList
    discovered := today
    source := "general".toList
    isNew := true
    status := "not-applied".toList
    notes := [] }

/-- Loop state of `search_all`: the growing dedup-key set, the next id to
assign, and the accepted new jobs in acceptance order. -/
structure MergeAcc where
  keys : List Str
  nextId : Int
  newJobs : List Job
deriving Repr

/-- The body of `search_all`'s inner loop for one candidate `r` of query
`query`: skip if the key is seen, else record the key, score, skip if the
score is below 70, else append with the next sequential id. -/
def mergeStep (today : Str) (acc : MergeAcc) (qr : Str × Candidate) : MergeAcc :=
  let r := qr.2
  let key := deduplicate_key r.title r.company
  if key ∈ acc.keys then acc
  else
    let keys := key :: acc.keys
    let score := calculate_fit_score r.title r.company
    if score < 70 then { acc with keys := keys }
    else
      { keys := keys
        nextId := acc.nextId + 1
        newJobs := acc.newJobs ++ [mkJob acc.nextId qr.1 r today score] }

/-- Initial loop state of `search_all`: keys of the existing records, and
`next_id = max([j.get("id", 0) for j in existing], default=100) + 1`. -/
def initAcc (existing : List Job) : MergeAcc :=
  { keys := existing.map jobKey
    nextId := pyMax (existing.map Job.id) 100 + 1
    newJobs := [] }

/-- The candidates of a run in processing order: queries in configured
order, each paired with the results `search_indeed_rss` returned for it. -/
def flatCands (qrs : List (Str × List Candidate)) : List (Str × Candidate) :=
  qrs.flatMap fun q => q.2.map fun r => (q.1, r)

/-- The merge loop of `search_all` over every query's results. -/
def runMergeAcc (existing : List Job) (qrs : List (Str × List Candidate))
    (today : Str) : MergeAcc :=
  (flatCands qrs).foldl (mergeStep today) (initAcc existing)

/-- The pure core of `search_all`: merge all candidates, recompute `isNew`
for every existing record, and return `existing + new_jobs` together with
`len(new_jobs)`. -/
def search_all (existing : List Job) (qrs : List (Str × List Candidate))
    (today : Str) : List Job × Nat :=
  let acc := runMergeAcc existing qrs today
  let existing2 := existing.map fun j => { j with isNew := j.discovered == today }
  (existing2 ++ acc.newJobs, acc.newJobs.length)

/-- A record with every field other than `isNew` intact and `isNew`
normalised, used to state that a run touches nothing but `isNew`. -/
def eraseIsNew (j : Job) : Job := { j with isNew := false }

/-- A sample query string (the first configured query). -/
def qSample : Str := "CFO fintech remote".toList

/-- A candidate whose title scores exactly 69 (base 40, vp +15, head +14)
with no company or remote bonus. -/
def cand69 : Candidate :=
  { title := "vp head".toList, company := "x".toList,
    link := "l".toList, pubDate := [] }

/-- A candidate whose title scores exactly 70 (base 40, vp +15, cpo +15)
with no company or remote bonus. -/
def cand70 : Candidate :=
  { title := "vp cpo".toList, company := "x".toList,
    link := "l".toList, pubDate := [] }

def dayOne : Str := "01/01/2024".toList

def dayTwo : Str := "01/02/2024".toList

/-- A sample persisted record discovered on `dayOne`. -/
def sampleJob : Job :=
  { id := 101, company := "Acme".toList, title := "VP Finance".toList,
    location := "Remote".toList, salary := "TBD".toList,
    remote := "Yes".toList, link := "l".toList, score := 85,
    reason := [], discovered := dayOne, source := "general".toList,
    isNew := true, status := "not-applied".toList, notes := [] }

/-- State of the `jobs_data.json` file as `load_existing_data` can find it:
absent, present but not valid JSON, or a parsed list of records. -/
inductive DataFile where
  | absent : DataFile
  | corrupt : DataFile
  | ok : List Job → DataFile
deriving DecidableEq, Repr

/-- `load_existing_data()`: return the parsed list when the file exists and
parses; on a missing file, or when `json.load` raises, return `[]`
(the `except` clause swallows the error). Totality of this function is the
model of "never raises". -/
def load_existing_data : DataFile → List Job
  | .absent => []
  | .corrupt => []
  | .ok jobs => jobs

/-- Outcome of the file-system write attempted by `save_data`. -/
inductive WriteOutcome where
  | success : WriteOutcome
  | ioError : Str → WriteOutcome
deriving DecidableEq, Repr

/-- `save_data(jobs)`: the write is not wrapped in any `try`, so a failing
write raises out of the function (`.error`); a successful write persists
the full list. -/
def save_data (w : WriteOutcome) (jobs : List Job) : Except Str (List Job) :=
  match w with
  | .success => .ok jobs
  | .ioError msg => .error msg

/-- The fixed literal prefix of the placeholder regex
`const JOBS = \[.*?\];` up to and including the opening bracket. -/
def jobsOpen : Str := "const JOBS = [".toList

/-- The closing literal `];` of the placeholder regex. -/
def jobsClose : Str := "];".toList

/-- Split a string at the first occurrence of `];` (the non-greedy `.*?\];`
of the placeholder regex): returns the part before it and the part after
it, or `none` when `];` does not occur. -/
def splitAtClose : Str → Option (Str × Str)
  | [] => none
  | c :: rest =>
    if jobsClose.isPrefixOf (c :: rest) then some ([], rest.drop 1)
    else
      match splitAtClose rest with
      | some (a, b) => some (c :: a, b)
      | none => none

theorem splitAtClose_snd_lt :
    ∀ s a b, splitAtClose s = some (a, b) → b.length < s.length := by
  intro s
  induction s with
  | nil => intro a b h; simp [splitAtClose] at h
  | cons c rest ih =>
    intro a b h
    simp only [splitAtClose] at h
    split at h
    · cases h
      simp only [List.length_cons, List.length_drop]
      omega
    · revert h
      split
      · rename_i a' b' hrec
        intro h
        cases h
        have := ih _ _ hrec
        simp only [List.length_cons]
        omega
      · intro h; cases h

/-- `re.sub(r'const JOBS = \[.*?\];', repl, html, flags=re.DOTALL)`:
scan left to right; wherever the literal `const JOBS = [` matches and a
`];` follows, replace the whole (non-greedy) match by `repl` and continue
after it; otherwise copy the character. -/
def subJobs (repl : Str) : Str → Str
  | [] => []
  | c :: rest =>
    if jobsOpen.isPrefixOf (c :: rest) then
      match h : splitAtClose (List.drop jobsOpen.length (c :: rest)) with
      | some (_, after) => repl ++ subJobs repl after
      | none => c :: subJobs repl rest
    else c :: subJobs repl rest
termination_by s => s.length
decreasing_by
  · have hlt := splitAtClose_snd_lt _ _ _ h
    have hd : (List.drop jobsOpen.length (c :: rest)).length
        ≤ (c :: rest).length := by
      simp [List.length_drop]
    simp only [List.length_cons] at *
    omega
  · simp only [List.length_cons]; omega
  · simp only [List.length_cons]; omega

/-- Whether the placeholder regex `const JOBS = \[.*?\];` matches anywhere
in the document. -/
def hasJobsPattern : Str → Bool
  | [] => false
  | c :: rest =>
    (jobsOpen.isPrefixOf (c :: rest)
      && (splitAtClose (List.drop jobsOpen.length (c :: rest))).isSome)
    || hasJobsPattern rest

/-- The pure core of `rebuild_dashboard` once the template was read:
substitute the placeholder, and if the result is unchanged return the
original document with `False` (no write); otherwise write the new
document and return `True`. The returned string is the resulting file
content. -/
def rebuild_dashboard (html : Str) (jobs_json : Str) : Str × Bool :=
  let replacement := "const JOBS = ".toList ++ jobs_json ++ ";".toList
  let new_html := subJobs replacement html
  if new_html == html then (html, false) else (new_html, true)

/-! ### Character-level lemmas -/

theorem char_toNat_ofNat (n : Nat) (h : n < 55296) : (Char.ofNat n).toNat = n := by
  rw [Char.ofNat, dif_pos (Or.inl h)]
  simp [Char.ofNatAux, Char.toNat, UInt32.ofNat', UInt32.toNat, BitVec.ofNatLt]

theorem char_eq_iff_toNat (c x : Char) : c = x ↔ c.toNat = x.toNat :=
  ⟨congrArg _, fun h => by
    have h2 := congrArg Char.ofNat h
    rwa [Char.ofNat_toNat, Char.ofNat_toNat] at h2⟩

theorem pySpace_toNat (c : Char) : pySpace c = true ↔
    (c.toNat = 32 ∨ c.toNat = 9 ∨ c.toNat = 10 ∨ c.toNat = 13
      ∨ c.toNat = 11 ∨ c.toNat = 12) := by
  simp [pySpace, char_eq_iff_toNat]
  tauto

theorem toLower_toNat_of (c : Char) (h : 65 ≤ c.toNat ∧ c.toNat ≤ 90) :
    (Char.toLower c).toNat = c.toNat + 32 := by
  rw [Char.toLower]
  simp only [ge_iff_le, h.1, h.2, and_self, if_pos]
  rw [char_toNat_ofNat _ (by omega)]

theorem toLower_eq_self (c : Char) (h : ¬ (65 ≤ c.toNat ∧ c.toNat ≤ 90)) :
    Char.toLower c = c := by
  rw [Char.toLower, if_neg]
  simpa using h

/-- Lower-casing never creates or destroys whitespace. -/
theorem pySpace_toLower (c : Char) : pySpace (Char.toLower c) = pySpace c := by
  by_cases h : 65 ≤ c.toNat ∧ c.toNat ≤ 90
  · have l1 : ¬ (pySpace (Char.toLower c) = true) := by
      rw [pySpace_toNat, toLower_toNat_of c h]; omega
    have l2 : ¬ (pySpace c = true) := by
      rw [pySpace_toNat]; omega
    simp only [Bool.not_eq_true] at l1 l2
    rw [l1, l2]
  · rw [toLower_eq_self c h]

/-- `strip` after `lower` is `lower` after `strip`. -/
theorem pyStrip_pyLower (s : Str) : pyStrip (pyLower s) = pyLower (pyStrip s) := by
  have hfun : (pySpace ∘ Char.toLower) = pySpace := funext pySpace_toLower
  simp only [pyStrip, pyLower]
  rw [List.dropWhile_map, hfun, ← List.map_reverse, List.dropWhile_map, hfun,
    ← List.map_reverse]

/-! ### Scorer lemmas -/

theorem foldl_if_add {α : Type} (p : α → Bool) (w : α → Nat) :
    ∀ (l : List α) (b : Nat),
      l.foldl (fun s x => if p x then s + w x else s) b
        = b + (l.map fun x => if p x then w x else 0).sum := by
  intro l
  induction l with
  | nil => intro b; simp
  | cons x xs ih =>
    intro b
    simp only [List.foldl_cons, List.map_cons, List.sum_cons, ih]
    split <;> omega

/-- C1: `calculate_fit_score` is exactly the clamped weighted sum the spec
describes, it always lies in `[0, 100]`, and the worked example
(title "VP Finance Transformation", company "Stripe", empty location)
scores exactly 85. -/
theorem calculate_fit_score_spec :
    (∀ title company location,
      calculate_fit_score title company location
        = calc_fit_spec title company location)
    ∧ (∀ title company location,
        calculate_fit_score title company location ≤ 100)
    ∧ calculate_fit_score "VP Finance Transformation".toList
        "Stripe".toList [] = 85 := by
  refine ⟨?_, ?_, by decide⟩
  · intro title company location
    simp only [calculate_fit_score, calc_fit_spec,
      foldl_if_add (fun kw => pyIn kw.1 (pyLower title)) Prod.snd]
    split_ifs <;> omega
  · intro title company location
    simp only [calculate_fit_score]
    split_ifs <;> omega

/-- C10: the scorer never returns less than the base 40 (and never more
than 100): its actual range is `[40, 100]`. -/
theorem calculate_fit_score_lower_bound :
    ∀ title company location,
      40 ≤ calculate_fit_score title company location
        ∧ calculate_fit_score title company location ≤ 100 := by
  intro title company location
  simp only [calculate_fit_score,
    foldl_if_add (fun kw => pyIn kw.1 (pyLower title)) Prod.snd]
  split_ifs <;> omega

/-- C6: the dedup key is the lowercased, trimmed `title|company`; inputs
that agree up to letter case and leading/trailing whitespace get the same
key, and the worked pair ("VP Finance", "Acme") vs ("vp finance", " Acme ")
collides. -/
theorem deduplicate_key_insensitive :
    (∀ title company, deduplicate_key title company
      = pyLower (pyStrip title) ++ '|' :: pyLower (pyStrip company))
    ∧ (∀ t₁ c₁ t₂ c₂,
        pyLower (pyStrip t₁) = pyLower (pyStrip t₂) →
        pyLower (pyStrip c₁) = pyLower (pyStrip c₂) →
        deduplicate_key t₁ c₁ = deduplicate_key t₂ c₂)
    ∧ deduplicate_key "VP Finance".toList "Acme".toList
        = deduplicate_key "vp finance".toList " Acme ".toList := by
  have hkey : ∀ title company, deduplicate_key title company
      = pyLower (pyStrip title) ++ '|' :: pyLower (pyStrip company) := by
    intro title company
    simp only [deduplicate_key, pyStrip_pyLower]
  refine ⟨hkey, ?_, by decide⟩
  intro t₁ c₁ t₂ c₂ ht hc
  rw [hkey, hkey, ht, hc]

/-- Closed instance of `deduplicate_key_insensitive`: its hypotheses hold
for the worked pair, whose keys are therefore equal. -/
theorem deduplicate_key_insensitive_witness :
    deduplicate_key "VP Finance".toList "Acme".toList
      = deduplicate_key "vp finance".toList " Acme ".toList :=
  deduplicate_key_insensitive.2.1
    "VP Finance".toList "Acme".toList "vp finance".toList " Acme ".toList
    (by decide) (by decide)

/-! ### Merge-loop lemmas -/

theorem mergeStep_seen (today : Str) (acc : MergeAcc) (q : Str) (r : Candidate)
    (h : deduplicate_key r.title r.company ∈ acc.keys) :
    mergeStep today acc (q, r) = acc := by
  simp [mergeStep, h]

theorem mergeStep_reject (today : Str) (acc : MergeAcc) (q : Str) (r : Candidate)
    (h : deduplicate_key r.title r.company ∉ acc.keys)
    (hs : calculate_fit_score r.title r.company < 70) :
    mergeStep today acc (q, r)
      = { acc with keys := deduplicate_key r.title r.company :: acc.keys } := by
  simp [mergeStep, h, hs]

theorem mergeStep_accept (today : Str) (acc : MergeAcc) (q : Str) (r : Candidate)
    (h : deduplicate_key r.title r.company ∉ acc.keys)
    (hs : ¬ calculate_fit_score r.title r.company < 70) :
    mergeStep today acc (q, r)
      = { keys := deduplicate_key r.title r.company :: acc.keys
          nextId := acc.nextId + 1
          newJobs := acc.newJobs
            ++ [mkJob acc.nextId q r today
                  (calculate_fit_score r.title r.company)] } := by
  simp [mergeStep, h, hs]

/-- The dedup key of the record built for a candidate is the candidate's key. -/
theorem jobKey_mkJob (id : Int) (q : Str) (r : Candidate) (today : Str) (s : Nat) :
    jobKey (mkJob id q r today s) = deduplicate_key r.title r.company := rfl

theorem mergeStep_keys_mono (today : Str) (acc : MergeAcc) (qr : Str × Candidate)
    (k : Str) (h : k ∈ acc.keys) : k ∈ (mergeStep today acc qr).keys := by
  obtain ⟨q, r⟩ := qr
  by_cases hk : deduplicate_key r.title r.company ∈ acc.keys
  · rw [mergeStep_seen today acc q r hk]; exact h
  · by_cases hs : calculate_fit_score r.title r.company < 70
    · rw [mergeStep_reject today acc q r hk hs]
      exact List.mem_cons_of_mem _ h
    · rw [mergeStep_accept today acc q r hk hs]
      exact List.mem_cons_of_mem _ h

theorem foldl_keys_mono (today : Str) :
    ∀ (cs : List (Str × Candidate)) (a : MergeAcc) (k : Str),
      k ∈ a.keys → k ∈ (cs.foldl (mergeStep today) a).keys := by
  intro cs
  induction cs with
  | nil => intro a k h; exact h
  | cons c cs ih =>
    intro a k h
    exact ih _ k (mergeStep_keys_mono today a c k h)

theorem range_map_int_succ (b : Int) (n : Nat) :
    (List.range (n + 1)).map (fun (i : Nat) => b + (i : Int))
      = b :: (List.range n).map (fun (i : Nat) => (b + 1) + (i : Int)) := by
  rw [List.range_succ_eq_map, List.map_cons, List.map_map]
  norm_num
  intro a _
  ring

/-- Structure of the merge loop from any starting state: the accepted jobs
are appended in order, ids are assigned sequentially from the starting
`nextId`, and every accepted job has score at least 70, is marked new, is
stamped with today, and has its key recorded. -/
theorem foldl_mergeStep_spec (today : Str) :
    ∀ (cs : List (Str × Candidate)) (a : MergeAcc), ∃ l : List Job,
      (cs.foldl (mergeStep today) a).newJobs = a.newJobs ++ l
      ∧ (cs.foldl (mergeStep today) a).nextId = a.nextId + l.length
      ∧ l.map Job.id
          = (List.range l.length).map (fun (i : Nat) => a.nextId + (i : Int))
      ∧ (∀ j ∈ l, 70 ≤ j.score ∧ j.isNew = true ∧ j.discovered = today
          ∧ jobKey j ∈ (cs.foldl (mergeStep today) a).keys) := by
  intro cs
  induction cs with
  | nil =>
    intro a
    exact ⟨[], by simp⟩
  | cons c cs ih =>
    intro a
    obtain ⟨q, r⟩ := c
    by_cases hk : deduplicate_key r.title r.company ∈ a.keys
    · simpa [List.foldl_cons, mergeStep_seen today a q r hk] using ih a
    · by_cases hs : calculate_fit_score r.title r.company < 70
      · obtain ⟨l, h1, h2, h3, h4⟩ :=
          ih { a with keys := deduplicate_key r.title r.company :: a.keys }
        exact ⟨l, by
          simpa [List.foldl_cons, mergeStep_reject today a q r hk hs]
            using ⟨h1, h2, h3, h4⟩⟩
      · obtain ⟨l, h1, h2, h3, h4⟩ :=
          ih { keys := deduplicate_key r.title r.company :: a.keys
               nextId := a.nextId + 1
               newJobs := a.newJobs
                 ++ [mkJob a.nextId q r today
                       (calculate_fit_score r.title r.company)] }
        refine ⟨mkJob a.nextId q r today
            (calculate_fit_score r.title r.company) :: l, ?_, ?_, ?_, ?_⟩
        · simp only [List.foldl_cons, mergeStep_accept today a q r hk hs]
          rw [h1]
          simp
        · simp only [List.foldl_cons, mergeStep_accept today a q r hk hs]
          rw [h2]
          simp only [List.length_cons]
          omega
        · simp only [List.map_cons, h3, List.length_cons, range_map_int_succ,
            List.cons.injEq, mkJob]
        · intro j hj
          rcases List.mem_cons.mp hj with hj | hj
          · subst hj
            refine ⟨by simp only [mkJob]; omega, rfl, rfl, ?_⟩
            simp only [List.foldl_cons, mergeStep_accept today a q r hk hs]
            apply foldl_keys_mono
            rw [jobKey_mkJob]
            exact List.mem_cons_self _ _
          · simpa [List.foldl_cons, mergeStep_accept today a q r hk hs]
              using h4 j hj

theorem foldl_newJobs_mono (today : Str) (cs : List (Str × Candidate))
    (a : MergeAcc) (j : Job) (h : j ∈ a.newJobs) :
    j ∈ (cs.foldl (mergeStep today) a).newJobs := by
  obtain ⟨l, h1, -, -, -⟩ := foldl_mergeStep_spec today cs a
  rw [h1]
  exact List.mem_append_left _ h

/-- Once a key is recorded, the rest of the run accepts no job carrying it. -/
theorem foldl_no_new_key (today : Str) :
    ∀ (cs : List (Str × Candidate)) (a : MergeAcc) (k : Str), k ∈ a.keys →
      ∀ j ∈ (cs.foldl (mergeStep today) a).newJobs, jobKey j = k →
        j ∈ a.newJobs := by
  intro cs
  induction cs with
  | nil => intro a k _ j hj _; exact hj
  | cons c cs ih =>
    intro a k hk j hj hkey
    obtain ⟨q, r⟩ := c
    by_cases h1 : deduplicate_key r.title r.company ∈ a.keys
    · rw [List.foldl_cons, mergeStep_seen today a q r h1] at hj
      exact ih a k hk j hj hkey
    · by_cases h2 : calculate_fit_score r.title r.company < 70
      · rw [List.foldl_cons, mergeStep_reject today a q r h1 h2] at hj
        exact ih { a with keys := deduplicate_key r.title r.company :: a.keys }
          k (List.mem_cons_of_mem _ hk) j hj hkey
      · rw [List.foldl_cons, mergeStep_accept today a q r h1 h2] at hj
        have hj2 := ih
          { keys := deduplicate_key r.title r.company :: a.keys
            nextId := a.nextId + 1
            newJobs := a.newJobs
              ++ [mkJob a.nextId q r today
                    (calculate_fit_score r.title r.company)] }
          k (List.mem_cons_of_mem _ hk) j hj hkey
        rcases List.mem_append.mp hj2 with hj3 | hj3
        · exact hj3
        · exfalso
          rw [List.mem_singleton.mp hj3, jobKey_mkJob] at hkey
          exact h1 (hkey ▸ hk)

/-- Dominance: a run started with a key set covering both the keys of the
reference state and the keys of every job the reference run accepts makes
no acceptance at all. -/
theorem foldl_dominated (today : Str) :
    ∀ (cs : List (Str × Candidate)) (a1 a2 : MergeAcc),
      (∀ k, k ∈ a2.keys ↔ (k ∈ a1.keys
        ∨ ∃ j ∈ (cs.foldl (mergeStep today) a1).newJobs, jobKey j = k)) →
      (∀ j ∈ a1.newJobs, jobKey j ∈ a1.keys) →
      (cs.foldl (mergeStep today) a2).newJobs = a2.newJobs := by
  intro cs
  induction cs with
  | nil => intro a1 a2 _ _; rfl
  | cons c cs ih =>
    intro a1 a2 hcover hacc
    obtain ⟨q, r⟩ := c
    by_cases h1 : deduplicate_key r.title r.company ∈ a1.keys
    · have hk2 : deduplicate_key r.title r.company ∈ a2.keys :=
        (hcover _).mpr (Or.inl h1)
      rw [List.foldl_cons, mergeStep_seen today a2 q r hk2]
      rw [List.foldl_cons, mergeStep_seen today a1 q r h1] at hcover
      exact ih a1 a2 hcover hacc
    · by_cases h2 : calculate_fit_score r.title r.company < 70
      · rw [List.foldl_cons, mergeStep_reject today a1 q r h1 h2] at hcover
        have hk2 : deduplicate_key r.title r.company ∉ a2.keys := by
          intro hmem
          rcases (hcover _).mp hmem with h3 | ⟨j, hj, hkey⟩
          · exact h1 h3
          · have hj2 := foldl_no_new_key today cs _ _
              (List.mem_cons_self _ _) j hj hkey
            exact h1 (hkey ▸ hacc j hj2)
        rw [List.foldl_cons, mergeStep_reject today a2 q r hk2 h2]
        refine ih { a1 with keys := deduplicate_key r.title r.company :: a1.keys }
          { a2 with keys := deduplicate_key r.title r.company :: a2.keys }
          ?_ ?_
        · intro k
          simp only [List.mem_cons]
          constructor
          · rintro (h3 | h3)
            · exact Or.inl (Or.inl h3)
            · rcases (hcover k).mp h3 with h4 | h4
              · exact Or.inl (Or.inr h4)
              · exact Or.inr h4
          · rintro ((h3 | h3) | h3)
            · exact Or.inl h3
            · exact Or.inr ((hcover k).mpr (Or.inl h3))
            · exact Or.inr ((hcover k).mpr (Or.inr h3))
        · intro j hj
          exact List.mem_cons_of_mem _ (hacc j hj)
      · rw [List.foldl_cons, mergeStep_accept today a1 q r h1 h2] at hcover
        have hjbmem : mkJob a1.nextId q r today
            (calculate_fit_score r.title r.company)
            ∈ (cs.foldl (mergeStep today)
              { keys := deduplicate_key r.title r.company :: a1.keys
                nextId := a1.nextId + 1
                newJobs := a1.newJobs
                  ++ [mkJob a1.nextId q r today
                        (calculate_fit_score r.title r.company)] }).newJobs := by
          apply foldl_newJobs_mono
          exact List.mem_append_right _ (List.mem_singleton.mpr rfl)
        have hk2 : deduplicate_key r.title r.company ∈ a2.keys :=
          (hcover _).mpr (Or.inr ⟨_, hjbmem, jobKey_mkJob _ _ _ _ _⟩)
        rw [List.foldl_cons, mergeStep_seen today a2 q r hk2]
        refine ih
          { keys := deduplicate_key r.title r.company :: a1.keys
            nextId := a1.nextId + 1
            newJobs := a1.newJobs
              ++ [mkJob a1.nextId q r today
                    (calculate_fit_score r.title r.company)] }
          a2 ?_ ?_
        · intro k
          simp only [List.mem_cons]
          constructor
          · intro hmem
            rcases (hcover k).mp hmem with h3 | h3
            · exact Or.inl (Or.inr h3)
            · exact Or.inr h3
          · rintro ((h3 | h3) | h3)
            · subst h3
              exact (hcover _).mpr (Or.inr ⟨_, hjbmem, jobKey_mkJob _ _ _ _ _⟩)
            · exact (hcover k).mpr (Or.inl h3)
            · exact (hcover k).mpr (Or.inr h3)
        · intro j hj
          rcases List.mem_append.mp hj with hj2 | hj2
          · exact List.mem_cons_of_mem _ (hacc j hj2)
          · rw [List.mem_singleton.mp hj2, jobKey_mkJob]
            exact List.mem_cons_self _ _

/-- Keys of a record are not affected by the `isNew` recompute. -/
theorem jobKey_update_isNew (j : Job) (b : Bool) :
    jobKey { j with isNew := b } = jobKey j := rfl

theorem foldl_max_le (xs : List Int) :
    ∀ b : Int, b ≤ xs.foldl max b ∧ ∀ x ∈ xs, x ≤ xs.foldl max b := by
  induction xs with
  | nil => intro b; exact ⟨le_refl b, by simp⟩
  | cons y ys ih =>
    intro b
    simp only [List.foldl_cons]
    refine ⟨le_trans (le_max_left b y) (ih (max b y)).1, ?_⟩
    intro x hx
    rcases List.mem_cons.mp hx with rfl | hx
    · exact le_trans (le_max_right b x) (ih (max b x)).1
    · exact (ih (max b y)).2 x hx

/-- Every element of the list is at most `max(l, default=d)`. -/
theorem le_pyMax (l : List Int) (d : Int) : ∀ x ∈ l, x ≤ pyMax l d := by
  cases l with
  | nil => intro x hx; cases hx
  | cons y ys =>
    intro x hx
    rcases List.mem_cons.mp hx with rfl | hx
    · exact (foldl_max_le ys x).1
    · exact (foldl_max_le ys y).2 x hx

/-- C2: when a candidate's key is fresh, its record is appended exactly
when its score reaches 70 (and left out exactly when the score is below
70); every job the merge loop accepts has score at least 70; and at the
boundary, `cand69` (score exactly 69) is excluded while `cand70` (score
exactly 70) is accepted. -/
theorem merge_threshold :
    (∀ today acc q r, deduplicate_key r.title r.company ∉ acc.keys →
      (((mergeStep today acc (q, r)).newJobs
          = acc.newJobs
            ++ [mkJob acc.nextId q r today
                  (calculate_fit_score r.title r.company)]
        ↔ 70 ≤ calculate_fit_score r.title r.company)
      ∧ ((mergeStep today acc (q, r)).newJobs = acc.newJobs
        ↔ calculate_fit_score r.title r.company < 70)))
    ∧ (∀ existing qrs today j,
        j ∈ (runMergeAcc existing qrs today).newJobs → 70 ≤ j.score)
    ∧ calculate_fit_score cand69.title cand69.company = 69
    ∧ calculate_fit_score cand70.title cand70.company = 70
    ∧ (runMergeAcc [] [(qSample, [cand69])] dayTwo).newJobs = []
    ∧ (runMergeAcc [] [(qSample, [cand70])] dayTwo).newJobs
        = [mkJob 101 qSample cand70 dayTwo 70] := by
  refine ⟨?_, ?_, by decide, by decide, by decide, by decide⟩
  · intro today acc q r hk
    by_cases hs : calculate_fit_score r.title r.company < 70
    · rw [mergeStep_reject today acc q r hk hs]
      constructor
      · constructor
        · intro h
          exfalso
          have := congrArg List.length h
          simp at this
        · intro h
          exact absurd h (by omega)
      · exact ⟨fun _ => hs, fun _ => rfl⟩
    · rw [mergeStep_accept today acc q r hk hs]
      constructor
      · exact ⟨fun _ => by omega, fun _ => rfl⟩
      · constructor
        · intro h
          exfalso
          have := congrArg List.length h
          simp at this
        · intro h
          exact absurd h hs
  · intro existing qrs today j hj
    obtain ⟨l, h1, -, -, h4⟩ :=
      foldl_mergeStep_spec today (flatCands qrs) (initAcc existing)
    simp only [runMergeAcc, initAcc, List.nil_append] at h1 hj
    rw [h1] at hj
    exact (h4 j hj).1

/-- Closed instance of `merge_threshold`: at the empty accumulator the
fresh candidate `cand70` is appended, and the accepted record of that run
scores at least 70. -/
theorem merge_threshold_witness :
    ((mergeStep dayTwo (initAcc []) (qSample, cand70)).newJobs
      = (initAcc []).newJobs
        ++ [mkJob (initAcc []).nextId qSample cand70 dayTwo
              (calculate_fit_score cand70.title cand70.company)])
    ∧ 70 ≤ (mkJob 101 qSample cand70 dayTwo 70).score :=
  ⟨((merge_threshold.1 dayTwo (initAcc []) qSample cand70 (by decide)).1).mpr
      (by decide),
   merge_threshold.2.1 [] [(qSample, [cand70])] dayTwo
      (mkJob 101 qSample cand70 dayTwo 70) (by decide)⟩

/-- C3: merging the same candidate set into the collection a run produced
adds zero new records; a candidate whose key is already tracked is skipped
outright; and the tracked key set covers both every existing record and
every record accepted during the run. -/
theorem merge_idempotent :
    (∀ existing qrs today,
      (search_all (search_all existing qrs today).1 qrs today).2 = 0)
    ∧ (∀ today acc q r,
        deduplicate_key r.title r.company ∈ acc.keys →
        mergeStep today acc (q, r) = acc)
    ∧ (∀ existing qrs today j,
        j ∈ existing ∨ j ∈ (runMergeAcc existing qrs today).newJobs →
        jobKey j ∈ (runMergeAcc existing qrs today).keys) := by
  refine ⟨?_, mergeStep_seen, ?_⟩
  · intro existing qrs today
    simp only [search_all, List.length_eq_zero]
    apply foldl_dominated today (flatCands qrs) (initAcc existing)
    · intro k
      simp only [initAcc, runMergeAcc, List.map_append, List.map_map,
        List.mem_append, List.mem_map, Function.comp_apply, jobKey_update_isNew]
    · intro j hj
      simp only [initAcc, List.not_mem_nil] at hj
  · intro existing qrs today j hj
    rcases hj with hj | hj
    · apply foldl_keys_mono today (flatCands qrs) (initAcc existing)
      simp only [initAcc, List.mem_map]
      exact ⟨j, hj, rfl⟩
    · obtain ⟨l, h1, -, -, h4⟩ :=
        foldl_mergeStep_spec today (flatCands qrs) (initAcc existing)
      simp only [runMergeAcc, initAcc, List.nil_append] at h1 hj ⊢
      rw [h1] at hj
      exact (h4 j hj).2.2.2

/-- Closed instance of `merge_idempotent`: a candidate whose key is
already tracked leaves the accumulator unchanged, and the sample record's
key is tracked after a run over its own store. -/
theorem merge_idempotent_witness :
    mergeStep dayTwo
      { keys := [deduplicate_key cand70.title cand70.company]
        nextId := 101, newJobs := [] } (qSample, cand70)
      = { keys := [deduplicate_key cand70.title cand70.company]
          nextId := 101, newJobs := [] }
    ∧ jobKey sampleJob ∈ (runMergeAcc [sampleJob] [] dayTwo).keys :=
  ⟨merge_idempotent.2.1 dayTwo
      { keys := [deduplicate_key cand70.title cand70.company]
        nextId := 101, newJobs := [] } qSample cand70 (by decide),
   merge_idempotent.2.2 [sampleJob] [] dayTwo sampleJob (Or.inl (by decide))⟩

/-- C4: after a run, every record of the saved collection has
`isNew == (discovered == today)`; every record the run accepts is marked
new and stamped with today; and the sample record discovered "01/01/2024"
is no longer new after a run on "01/02/2024". -/
theorem isNew_recompute :
    (∀ existing qrs today,
      ((search_all existing qrs today).1.all
        fun j => j.isNew == (j.discovered == today)) = true)
    ∧ (∀ existing qrs today j,
        j ∈ (runMergeAcc existing qrs today).newJobs →
        j.isNew = true ∧ j.discovered = today)
    ∧ (search_all [sampleJob] [] dayTwo).1.map Job.isNew = [false] := by
  have hnew : ∀ existing qrs today (j : Job),
      j ∈ (runMergeAcc existing qrs today).newJobs →
      j.isNew = true ∧ j.discovered = today := by
    intro existing qrs today j hj
    obtain ⟨l, h1, -, -, h4⟩ :=
      foldl_mergeStep_spec today (flatCands qrs) (initAcc existing)
    simp only [runMergeAcc, initAcc, List.nil_append] at h1 hj
    rw [h1] at hj
    exact ⟨(h4 j hj).2.1, (h4 j hj).2.2.1⟩
  refine ⟨?_, hnew, by decide⟩
  intro existing qrs today
  rw [List.all_eq_true]
  intro j hj
  simp only [search_all, List.mem_append] at hj
  rcases hj with hj | hj
  · obtain ⟨j0, -, rfl⟩ := List.mem_map.mp hj
    simp
  · obtain ⟨h5, h6⟩ := hnew existing qrs today j hj
    rw [h5, h6]
    simp

/-- Closed instance of `isNew_recompute`: the record accepted for `cand70`
is marked new and stamped with the run's date. -/
theorem isNew_recompute_witness :
    (mkJob 101 qSample cand70 dayTwo 70).isNew = true
    ∧ (mkJob 101 qSample cand70 dayTwo 70).discovered = dayTwo :=
  isNew_recompute.2.1 [] [(qSample, [cand70])] dayTwo
    (mkJob 101 qSample cand70 dayTwo 70) (by decide)

/-- C5: ids of the records a run accepts are `max existing id (default
100) + 1, + 2, ...` in acceptance order, hence strictly increasing; if the
existing ids are unique the whole resulting collection's ids are unique;
and the first id assigned into an empty collection is 101. -/
theorem ids_sequential :
    (∀ existing qrs today,
      (runMergeAcc existing qrs today).newJobs.map Job.id
        = (List.range (runMergeAcc existing qrs today).newJobs.length).map
            (fun (i : Nat) => pyMax (existing.map Job.id) 100 + 1 + (i : Int)))
    ∧ (∀ existing qrs today,
        ((runMergeAcc existing qrs today).newJobs.map Job.id).Pairwise (· < ·))
    ∧ (∀ existing qrs today, (existing.map Job.id).Nodup →
        ((search_all existing qrs today).1.map Job.id).Nodup)
    ∧ (runMergeAcc [] [(qSample, [cand70])] dayTwo).newJobs.map Job.id
        = [101] := by
  have hmain : ∀ existing qrs today,
      (runMergeAcc existing qrs today).newJobs.map Job.id
        = (List.range (runMergeAcc existing qrs today).newJobs.length).map
            (fun (i : Nat) => pyMax (existing.map Job.id) 100 + 1 + (i : Int)) := by
    intro existing qrs today
    obtain ⟨l, h1, -, h3, -⟩ :=
      foldl_mergeStep_spec today (flatCands qrs) (initAcc existing)
    simp only [runMergeAcc, initAcc, List.nil_append] at h1 h3 ⊢
    rw [h1, h3]
  have hpw : ∀ existing qrs today,
      ((runMergeAcc existing qrs today).newJobs.map Job.id).Pairwise (· < ·) := by
    intro existing qrs today
    rw [hmain existing qrs today, List.pairwise_map]
    apply (List.pairwise_lt_range _).imp
    intro a b hab
    omega
  refine ⟨hmain, hpw, ?_, by decide⟩
  intro existing qrs today hnd
  simp only [search_all, List.map_append, List.map_map]
  refine List.nodup_append.mpr ⟨?_, ?_, ?_⟩
  · have hcomp : (Job.id ∘ fun j : Job => { j with isNew := j.discovered == today })
        = Job.id := rfl
    rw [hcomp]
    exact hnd
  · have := hpw existing qrs today
    simp only [runMergeAcc] at this ⊢
    exact this.imp ne_of_lt
  · intro x hx hx2
    have hle : x ≤ pyMax (existing.map Job.id) 100 := by
      apply le_pyMax
      have hcomp : (Job.id ∘ fun j : Job => { j with isNew := j.discovered == today })
          = Job.id := rfl
      rw [hcomp] at hx
      exact hx
    have h2 := hmain existing qrs today
    simp only [runMergeAcc] at h2 hx2
    rw [h2] at hx2
    obtain ⟨i, -, hi⟩ := List.mem_map.mp hx2
    omega

/-- Closed instance of `ids_sequential`: from the empty collection (ids
trivially unique) the run over `cand70` yields a collection with unique
ids. -/
theorem ids_sequential_witness :
    ((search_all [] [(qSample, [cand70])] dayTwo).1.map Job.id).Nodup :=
  ids_sequential.2.2.1 [] [(qSample, [cand70])] dayTwo (by decide)

/-- C9: a run preserves every field of every existing record except
`isNew` (in particular `status` and `notes`), keeps the existing records
first and in order, and appends the accepted records at the end. -/
theorem frame_preserved :
    (∀ existing qrs today,
      (((search_all existing qrs today).1.take existing.length).map eraseIsNew)
        = existing.map eraseIsNew)
    ∧ (∀ existing qrs today,
        (((search_all existing qrs today).1.take existing.length).map Job.status)
          = existing.map Job.status)
    ∧ (∀ existing qrs today,
        (((search_all existing qrs today).1.take existing.length).map Job.notes)
          = existing.map Job.notes)
    ∧ (∀ existing qrs today,
        (search_all existing qrs today).1.drop existing.length
          = (runMergeAcc existing qrs today).newJobs) := by
  have htake : ∀ existing (qrs : List (Str × List Candidate)) today,
      (search_all existing qrs today).1.take existing.length
        = existing.map fun j => { j with isNew := j.discovered == today } := by
    intro existing qrs today
    simp only [search_all]
    exact List.take_left' (by simp)
  refine ⟨?_, ?_, ?_, ?_⟩
  · intro existing qrs today
    rw [htake existing qrs today, List.map_map]
    rfl
  · intro existing qrs today
    rw [htake existing qrs today, List.map_map]
    rfl
  · intro existing qrs today
    rw [htake existing qrs today, List.map_map]
    rfl
  · intro existing qrs today
    simp only [search_all]
    exact List.drop_left' (by simp)

/-- C7: reading the store never raises — a missing or unparseable file
yields the empty collection — while a failing write raises out of
`save_data` with no fallback. -/
theorem storage_failure_semantics :
    load_existing_data .absent = []
    ∧ load_existing_data .corrupt = []
    ∧ (∀ jobs, load_existing_data (.ok jobs) = jobs)
    ∧ (∀ jobs, save_data .success jobs = .ok jobs)
    ∧ (∀ msg jobs, save_data (.ioError msg) jobs = .error msg) :=
  ⟨rfl, rfl, fun _ => rfl, fun _ => rfl, fun _ _ => rfl⟩

/-- On a document without the placeholder, the substitution is the
identity. -/
theorem subJobs_eq_of_no_pattern (repl : Str) :
    ∀ s : Str, hasJobsPattern s = false → subJobs repl s = s := by
  intro s
  induction s with
  | nil => intro _; simp [subJobs]
  | cons c rest ih =>
    intro h
    simp only [hasJobsPattern, Bool.or_eq_false_iff, Bool.and_eq_false_iff] at h
    obtain ⟨h1, h2⟩ := h
    by_cases hpre : jobsOpen.isPrefixOf (c :: rest)
    · have hnone : splitAtClose (List.drop jobsOpen.length (c :: rest)) = none := by
        rcases h1 with h3 | h3
        · exact absurd hpre (by simp [h3])
        · exact Option.not_isSome_iff_eq_none.mp (by simp [h3])
      simp only [subJobs, hpre, if_true, ih h2]
      split
      · rename_i heq
        rw [hnone] at heq
        cases heq
      · rfl
    · simp [subJobs, hpre, ih h2]

/-- C8: when the template contains no occurrence of the
`const JOBS = [...];` pattern, the publisher leaves the document
byte-identical and reports failure (`false`); totality models that it does
not raise. -/
theorem rebuild_no_placeholder :
    ∀ html jobs_json, hasJobsPattern html = false →
      rebuild_dashboard html jobs_json = (html, false) := by
  intro html jobs_json h
  simp [rebuild_dashboard, subJobs_eq_of_no_pattern _ html h]

/-- Closed instance of `rebuild_no_placeholder` at a concrete
placeholder-free template. -/
theorem rebuild_no_placeholder_witness :
    rebuild_dashboard "<p>hi</p>".toList "[]".toList
      = ("<p>hi</p>".toList, false) :=
  rebuild_no_placeholder "<p>hi</p>".toList "[]".toList (by decide)

end JobTracker
